import Mathlib

/-!
Verification development for the DBS help-centre ingestion pipeline.

The pipeline's text-normalisation utility (`clean_text`), the
sentence-boundary packing algorithm (`chunk_by_sentences`), the per-article
chunker (`create_langchain_docs_from_article`) and the query-time context
assembly (`format_docs`) are embedded shallowly.  Strings are modelled as
lists of characters; Python `len`, negative slicing, `str.strip`,
`str.replace`, `" ".join` and `re.split(r"(?<=[.!?])\s+", ...)` are embedded
explicitly, character by character.
-/

set_option maxRecDepth 40000

abbrev Str := List Char

/-- Python `re.sub(r"\s+", " ", text)`: collapse every maximal whitespace run
into a single space.  The flag records whether the scan is inside a run. -/
def collapseGo : Bool → Str → Str
  | _, [] => []
  | inRun, c :: t =>
    if c.isWhitespace then
      if inRun then collapseGo true t else ' ' :: collapseGo true t
    else c :: collapseGo false t

def collapseWs (s : Str) : Str := collapseGo false s

/-- Leading-whitespace removal (the left half of Python `str.strip`). -/
def trimL (s : Str) : Str := s.dropWhile Char.isWhitespace

/-- Trailing-whitespace removal (the right half of Python `str.strip`). -/
def trimR : Str → Str
  | [] => []
  | c :: t =>
    match trimR t with
    | [] => if c.isWhitespace then [] else [c]
    | r => c :: r

/-- Python `str.strip()`. -/
def trim (s : Str) : Str := trimR (trimL s)

/-- `clean_text` as written in both the scraper and the ingester:
`re.sub(r"\s+", " ", text).strip()`. -/
def clean_text (s : Str) : Str := trim (collapseWs s)

/-- No leading whitespace character. -/
def noLeadWs : Str → Bool
  | [] => true
  | c :: _ => !c.isWhitespace

/-- No trailing whitespace character. -/
def noTrailWs (s : Str) : Bool :=
  match s.getLast? with
  | none => true
  | some c => !c.isWhitespace

/-- No two adjacent whitespace characters. -/
def noWsRun : Str → Bool
  | a :: b :: t => (!(a.isWhitespace && b.isWhitespace)) && noWsRun (b :: t)
  | _ => true

/-- The specification's normalisation invariant: no run of consecutive
whitespace characters and no leading or trailing whitespace. -/
def normalizedB (s : Str) : Bool := noLeadWs s && noWsRun s && noTrailWs s

def isPunct (c : Char) : Bool := c == '.' || c == '!' || c == '?'

/-- `re.split(r"(?<=[.!?])\s+", text)`.  The accumulator holds the current
piece reversed; a whitespace character directly after `.`, `!` or `?` opens a
separator (first mode argument `true`), which greedily swallows the whole
whitespace run before the next piece starts. -/
def splitGo : Bool → Str → Str → List Str
  | false, [], acc => [acc.reverse]
  | false, c :: rest, acc =>
    if c.isWhitespace && (match acc with | p :: _ => isPunct p | [] => false) then
      acc.reverse :: splitGo true rest []
    else
      splitGo false rest (c :: acc)
  | true, [], _ => [[]]
  | true, c :: rest, _ =>
    if c.isWhitespace then splitGo true rest [] else splitGo false rest [c]

def splitSentences (text : Str) : List Str := splitGo false text []

-- Chunking parameters of the ingester.
def MAX_CHUNK_SIZE : Nat := 1000
def CHUNK_OVERLAP : Nat := 150
def MIN_CHUNK_SIZE : Nat := 50

/-- Python `current[-overlap:] if len(current) > overlap else current`
(`s[-0:]` is the whole string, hence the inner test). -/
def pyTail (s : Str) (n : Nat) : Str :=
  if s.length > n then (if n = 0 then s else s.drop (s.length - n)) else s

/-- The per-sentence loop of `chunk_by_sentences`, returning the chunk list
as built before the final minimum-size filter. -/
def chunkLoop (maxSize overlap : Nat) : List Str → Str → List Str
  | [], cur => if trim cur ≠ [] then [trim cur] else []
  | s :: rest, cur =>
    if trim s = [] then chunkLoop maxSize overlap rest cur
    else if maxSize < cur.length + (trim s).length ∧ cur ≠ [] then
      trim cur :: chunkLoop maxSize overlap rest (pyTail cur overlap ++ ' ' :: trim s)
    else chunkLoop maxSize overlap rest (trim (cur ++ ' ' :: trim s))

/-- `chunk_by_sentences` from the ingester: split at sentence boundaries,
greedily pack with overlap, then drop chunks below `MIN_CHUNK_SIZE`. -/
def chunk_by_sentences (text : Str) (maxSize : Nat := MAX_CHUNK_SIZE)
    (overlap : Nat := CHUNK_OVERLAP) : List Str :=
  (chunkLoop maxSize overlap (splitSentences text) []).filter
    (fun c => MIN_CHUNK_SIZE ≤ c.length)

/-! ## Structural extractor (`dbs_scraper.extract_page_content`)

The extractor walks a parsed DOM; its stored text fields are built from the
raw node texts by the pipelines below, which are embedded with the raw texts
(and, where the source walks siblings, the sibling tag names) as
parameters. -/

/-- Python `str.replace(pat, "")`: scan left to right, removing every
non-overlapping occurrence of `pat`. -/
def removeOccs (pat : Str) : Str → Str
  | [] => []
  | c :: t =>
    if h : pat ≠ [] ∧ pat.isPrefixOf (c :: t) then
      removeOccs pat ((c :: t).drop pat.length)
    else c :: removeOccs pat t
termination_by s => s.length
decreasing_by
  all_goals simp_wf
  exact List.length_pos.mpr h.1

/-- The site-name suffix stripped from `<title>`-derived titles. -/
def dbsSuffix : Str := (" | DBS Singapore").toList

/-- Title via the first `<h1>`: `clean_text(h1.get_text())`. -/
def mk_title_h1 (raw : Str) : Str := clean_text raw

/-- Title via `<title>`:
`clean_text(...).replace(" | DBS Singapore", "")`. -/
def mk_title_doc (raw : Str) : Str := removeOccs dbsSuffix (clean_text raw)

/-- A step entry: `clean_text(parent.get_text())`. -/
def mk_step (raw : Str) : Str := clean_text raw

/-- A note entry: `clean_text(note.get_text())`. -/
def mk_note (raw : Str) : Str := clean_text raw

/-- The stored full text: `clean_text(main.get_text())[:15000]`. -/
def mk_full_text (raw : Str) : Str := (clean_text raw).take 15000

/-- An FAQ question: `clean_text(strong.get_text())`. -/
def mk_faq_question (raw : Str) : Str := clean_text raw

/-- Python `" ".join(parts)`. -/
def joinSp : List Str → Str
  | [] => []
  | [x] => x
  | x :: y :: t => x ++ ' ' :: joinSp (y :: t)

def headerTags : List Str := [('h' :: ['1']), ('h' :: ['2']), ('h' :: ['3']), ('h' :: ['4'])]

/-- The FAQ answer-collection walk over subsequent siblings, each given as
(tag name, raw text): stop at a heading tag, an empty normalized text or a
question-like text; stop after the fifth collected fragment. -/
def collectAnswer : List (Str × Str) → List Str → List Str
  | [], acc => acc
  | (name, raw) :: rest, acc =>
    if name ∈ headerTags then acc
    else
      let t := clean_text raw
      if t = [] then acc
      else if t.getLast? = some '?' ∧ 10 < t.length then acc
      else
        let acc2 := acc ++ [t]
        if 5 ≤ acc2.length then acc2 else collectAnswer rest acc2

/-- An FAQ answer: `" ".join(answer_parts)`. -/
def mk_faq_answer (sibs : List (Str × Str)) : Str := joinSp (collectAnswer sibs [])

def h23Tags : List Str := [('h' :: ['2']), ('h' :: ['3'])]

/-- Section content fragments: siblings until the next `<h2>`/`<h3>`, their
normalized texts kept when longer than 3 characters. -/
def sectionParts (sibs : List (Str × Str)) : List Str :=
  ((sibs.takeWhile (fun p => !(h23Tags.contains p.1))).map
    (fun p => clean_text p.2)).filter (fun t => 3 < t.length)

/-- A section's stored content: `" ".join(content_parts)`. -/
def mk_section_content (sibs : List (Str × Str)) : Str := joinSp (sectionParts sibs)

/-! ## Data model and chunker (`dbs_ingest.create_langchain_docs_from_article`) -/

structure FaqPair where
  question : Str
  answer : Str
deriving DecidableEq, Repr

structure SectionRec where
  heading : Str
  content : Str
deriving DecidableEq, Repr

structure Article where
  url : Str
  title : Str
  category : Str
  full_text : Str
  steps : List Str
  faq_pairs : List FaqPair
  sections : List SectionRec
  notes : List Str
deriving DecidableEq, Repr

/-- The flat metadata mapping attached to every chunk; the `question` and
`section_heading` keys are present only on `faq` / `section` chunks. -/
structure ChunkMeta where
  url : Str
  title : Str
  category : Str
  chunk_type : Str
  source : Str
  question : Option Str
  section_heading : Option Str
deriving DecidableEq, Repr

structure Document where
  page_content : Str
  metadata : ChunkMeta
deriving DecidableEq, Repr

/-- The context line `f"[{category}] {title}\n"` prepended to every chunk. -/
def contextLine (a : Article) : Str :=
  '[' :: (a.category ++ ']' :: ' ' :: (a.title ++ ['\n']))

def baseMeta (a : Article) (ct : Str) : ChunkMeta :=
  { url := a.url, title := a.title, category := a.category,
    chunk_type := ct, source := a.url, question := none, section_heading := none }

def mkFaqDoc (a : Article) (p : FaqPair) : Document :=
  { page_content := contextLine a ++ ("Q: ").toList ++ trim p.question
      ++ '\n' :: ("A: ").toList ++ trim p.answer,
    metadata := { baseMeta a (("faq").toList) with question := some (trim p.question) } }

/-- Strategy 1: one `faq` document per FAQ pair with non-empty stripped
question and answer. -/
def faqDocs (a : Article) : List Document :=
  a.faq_pairs.filterMap fun p =>
    if trim p.question ≠ [] ∧ trim p.answer ≠ [] then some (mkFaqDoc a p) else none

def stepHeadFirst : Str := ("How to (step-by-step):\n").toList
def stepHeadCont : Str := ("How to (continued):\n").toList

def mkStepsDoc (a : Article) (g : Str) : Document :=
  { page_content := trim g, metadata := baseMeta a (("steps").toList) }

/-- Strategy 2's buffer loop: before appending a step, flush when the buffer
plus the step exceeds `MAX_CHUNK_SIZE` and the buffer extends more than 30
characters past the context line; at the end flush when the stripped buffer
does. -/
def stepsLoop (a : Article) : List Str → Str → List Document
  | [], g =>
    if (contextLine a).length + 30 < (trim g).length then [mkStepsDoc a g] else []
  | st :: rest, g =>
    if MAX_CHUNK_SIZE < g.length + st.length ∧ (contextLine a).length + 30 < g.length then
      mkStepsDoc a g :: stepsLoop a rest ((contextLine a ++ stepHeadCont) ++ st ++ ['\n'])
    else stepsLoop a rest (g ++ st ++ ['\n'])

def stepsDocs (a : Article) : List Document :=
  if a.steps = [] then [] else stepsLoop a a.steps (contextLine a ++ stepHeadFirst)

def mkSectionDoc (a : Article) (heading : Str) (pc : Str) : Document :=
  { page_content := pc,
    metadata := { baseMeta a (("section").toList) with section_heading := some heading } }

/-- Strategy 3: one `section` document per section when it fits in
`MAX_CHUNK_SIZE`, else one per sentence-packed piece of the content. -/
def sectionDocs (a : Article) : List Document :=
  a.sections.flatMap fun s =>
    if s.content = [] then []
    else if (contextLine a ++ s.heading ++ '\n' :: s.content).length ≤ MAX_CHUNK_SIZE then
      [mkSectionDoc a s.heading (contextLine a ++ s.heading ++ '\n' :: s.content)]
    else (chunk_by_sentences s.content).map fun sc =>
      mkSectionDoc a s.heading (contextLine a ++ s.heading ++ '\n' :: sc)

def mkTextDoc (a : Article) (tc : Str) : Document :=
  { page_content := contextLine a ++ tc, metadata := baseMeta a (("text").toList) }

/-- Strategy 4: full-text fallback, sentence-packed. -/
def textDocs (a : Article) : List Document :=
  if a.full_text = [] then []
  else (chunk_by_sentences a.full_text).map (mkTextDoc a)

def mkNoteDoc (a : Article) (n : Str) : Document :=
  { page_content := contextLine a ++ ("Important: ").toList ++ n,
    metadata := baseMeta a (("note").toList) }

/-- Strategy 5: one `note` document per note of length at least
`MIN_CHUNK_SIZE`. -/
def noteDocs (a : Article) : List Document :=
  a.notes.filterMap fun n =>
    if MIN_CHUNK_SIZE ≤ n.length then some (mkNoteDoc a n) else none

/-- `create_langchain_docs_from_article`: strategies 1-3, then the full-text
fallback only when they produced nothing, then notes. -/
def create_langchain_docs_from_article (a : Article) : List Document :=
  (if faqDocs a ++ stepsDocs a ++ sectionDocs a = [] then textDocs a
   else faqDocs a ++ stepsDocs a ++ sectionDocs a) ++ noteDocs a

/-! ## Context assembly (`dbs_chatbot_st.format_docs`) -/

def docSeparator : Str := ("\n\n---\n\n").toList

/-- `format_docs`: format each retrieved chunk and join with the
horizontal-rule separator. -/
def format_docs (docs : List Document) : Str :=
  List.intercalate docSeparator (docs.map fun d =>
    ("[Source: ").toList ++ d.metadata.title ++ ("]\n").toList
      ++ d.page_content ++ ("\n(URL: ").toList ++ d.metadata.url ++ [')'])

/-! ## Spec-side variants, for the refinement claims

These two definitions follow the specification's words where they differ
from the source; each claim's theorem compares them with the source-derived
definitions above. -/

/-- The trailing `n` characters of a list (the whole list if shorter). -/
def takeRightList (n : Nat) (l : Str) : Str := l.drop (l.length - n)

/-- Modelled from the spec's words for claim C6: close the buffer when
*appending the sentence (space-joined) would make its length exceed*
`maxSize`; seed the new buffer with the trailing `overlap` characters. -/
def chunkLoopSpecC6 (maxSize overlap : Nat) : List Str → Str → List Str
  | [], cur => if trim cur ≠ [] then [trim cur] else []
  | s :: rest, cur =>
    if trim s = [] then chunkLoopSpecC6 maxSize overlap rest cur
    else if maxSize < (cur ++ ' ' :: trim s).length ∧ cur ≠ [] then
      trim cur :: chunkLoopSpecC6 maxSize overlap rest (takeRightList overlap cur ++ ' ' :: trim s)
    else chunkLoopSpecC6 maxSize overlap rest (trim (cur ++ ' ' :: trim s))

def chunk_by_sentences_specC6 (text : Str) (maxSize overlap : Nat) : List Str :=
  (chunkLoopSpecC6 maxSize overlap (splitSentences text) []).filter
    (fun c => MIN_CHUNK_SIZE ≤ c.length)

/-- The source's sentence loop with the overlap seed written as the spec
says it (`takeRightList`, meaningful for `overlap ≥ 1`); claim C6's amended
statement equates it with `chunkLoop`. -/
def chunkLoopAmendedC6 (maxSize overlap : Nat) : List Str → Str → List Str
  | [], cur => if trim cur ≠ [] then [trim cur] else []
  | s :: rest, cur =>
    if trim s = [] then chunkLoopAmendedC6 maxSize overlap rest cur
    else if maxSize < cur.length + (trim s).length ∧ cur ≠ [] then
      trim cur :: chunkLoopAmendedC6 maxSize overlap rest (takeRightList overlap cur ++ ' ' :: trim s)
    else chunkLoopAmendedC6 maxSize overlap rest (trim (cur ++ ' ' :: trim s))

def chunk_by_sentences_amendedC6 (text : Str) (maxSize overlap : Nat) : List Str :=
  (chunkLoopAmendedC6 maxSize overlap (splitSentences text) []).filter
    (fun c => MIN_CHUNK_SIZE ≤ c.length)

/-- Modelled from the spec's words for claim C3: flush when the buffer
*already* exceeds `MAX_CHUNK_SIZE` and its content beyond the context line
exceeds 30 characters. -/
def stepsLoopSpecC3 (a : Article) : List Str → Str → List Document
  | [], g =>
    if 30 < ((trim g).drop (contextLine a).length).length then [mkStepsDoc a g] else []
  | st :: rest, g =>
    if MAX_CHUNK_SIZE < g.length ∧ 30 < (g.drop (contextLine a).length).length then
      mkStepsDoc a g :: stepsLoopSpecC3 a rest ((contextLine a ++ stepHeadCont) ++ st ++ ['\n'])
    else stepsLoopSpecC3 a rest (g ++ st ++ ['\n'])

def stepsDocsSpecC3 (a : Article) : List Document :=
  if a.steps = [] then [] else stepsLoopSpecC3 a a.steps (contextLine a ++ stepHeadFirst)

/-- The source's step loop with the buffer-beyond-the-header test written as
the spec says it; claim C3's amended statement equates it with
`stepsLoop`. -/
def stepsLoopAmendedC3 (a : Article) : List Str → Str → List Document
  | [], g =>
    if 30 < ((trim g).drop (contextLine a).length).length then [mkStepsDoc a g] else []
  | st :: rest, g =>
    if MAX_CHUNK_SIZE < g.length + st.length ∧ 30 < (g.drop (contextLine a).length).length then
      mkStepsDoc a g :: stepsLoopAmendedC3 a rest ((contextLine a ++ stepHeadCont) ++ st ++ ['\n'])
    else stepsLoopAmendedC3 a rest (g ++ st ++ ['\n'])

def stepsDocsAmendedC3 (a : Article) : List Document :=
  if a.steps = [] then [] else stepsLoopAmendedC3 a a.steps (contextLine a ++ stepHeadFirst)

/-! ## Concrete inputs used by counterexamples and witnesses -/

/-- Three sentences of lengths 55, 55 and 40; none exceeds `maxSize = 60`. -/
def exTextC1 : Str :=
  List.replicate 54 'a' ++ ['.', ' '] ++ List.replicate 54 'b' ++ ['.', ' ']
    ++ List.replicate 39 'c' ++ ['.']

/-- Three sentences of length 30 each. -/
def exTextC6 : Str :=
  List.replicate 29 'a' ++ ['.', ' '] ++ List.replicate 29 'b' ++ ['.', ' ']
    ++ List.replicate 29 'c' ++ ['.']

/-- A 60-character text with no sentence punctuation. -/
def exText60 : Str := List.replicate 60 'a'

def exArticleC5 : Article :=
  { url := ("u").toList, title := ("PayNow FAQ").toList,
    category := ("Banking - PayNow").toList, full_text := [],
    steps := [], sections := [], notes := [],
    faq_pairs := [⟨("What is PayNow?").toList,
                   ("PayNow is a funds transfer service.").toList⟩] }

/-- An article with nothing in it at all. -/
def exArticleEmpty : Article :=
  { url := ("u").toList, title := [], category := [], full_text := [],
    steps := [], faq_pairs := [], sections := [], notes := [] }

/-- An article with two 600-character steps. -/
def exArticleC3 : Article :=
  { url := ("u").toList, title := [('t')], category := [('c')], full_text := [],
    steps := [List.replicate 600 'a', List.replicate 600 'b'],
    faq_pairs := [], sections := [], notes := [] }

/-- An article whose only content is a 60-character full text. -/
def exArticleText : Article :=
  { url := ("u").toList, title := [('t')], category := [('c')], full_text := exText60,
    steps := [], faq_pairs := [], sections := [], notes := [] }

/-- An article whose only content is one 60-character note. -/
def exArticleNote : Article :=
  { url := ("u").toList, title := [('t')], category := [('c')], full_text := [],
    steps := [], faq_pairs := [], sections := [], notes := [List.replicate 60 'n'] }

/-- The single document claim C5 expects for `exArticleC5`. -/
def exDocC5 : Document :=
  { page_content :=
      ("[Banking - PayNow] PayNow FAQ\nQ: What is PayNow?\nA: PayNow is a funds transfer service.").toList,
    metadata :=
      { url := ("u").toList, title := ("PayNow FAQ").toList,
        category := ("Banking - PayNow").toList, chunk_type := ("faq").toList,
        source := ("u").toList, question := some (("What is PayNow?").toList),
        section_heading := none } }

/-- Modelled from the spec's words for claim C9: each chunk formatted with
its metadata `source`, joined by the horizontal-rule separator. -/
def format_docs_specC9 (docs : List Document) : Str :=
  List.intercalate docSeparator (docs.map fun d =>
    ("[Source: ").toList ++ d.metadata.title ++ ("]\n").toList
      ++ d.page_content ++ ("\n(URL: ").toList ++ d.metadata.source ++ [')'])

/-- A raw main-content text whose cleaned form is 15001 characters long with
a space at index 14999: truncation to 15000 ends on that space. -/
def cexRawC4 : Str := 'a' :: (List.replicate 14998 'a' ++ [' ', 'b'])

/-! ## Lemmas about trimming and slicing -/

theorem trimR_length_le (s : Str) : (trimR s).length ≤ s.length := by
  induction s with
  | nil => simp [trimR]
  | cons c t ih =>
    rw [trimR]
    cases h : trimR t with
    | nil =>
      by_cases hc : c.isWhitespace <;> simp [hc]
    | cons x r =>
      rw [h] at ih
      simp only [List.length_cons] at ih ⊢
      omega

theorem trimL_length_le (s : Str) : (trimL s).length ≤ s.length :=
  (List.dropWhile_sublist _).length_le

theorem trim_length_le (s : Str) : (trim s).length ≤ s.length :=
  le_trans (trimR_length_le _) (trimL_length_le _)

theorem pyTail_length_le (s : Str) (n : Nat) (hn : 1 ≤ n) : (pyTail s n).length ≤ n := by
  unfold pyTail
  split
  · rw [if_neg (by omega)]
    simp only [List.length_drop]
    omega
  · omega

theorem pyTail_eq_takeRight (s : Str) (n : Nat) (hn : 1 ≤ n) :
    pyTail s n = takeRightList n s := by
  unfold pyTail takeRightList
  split
  · rw [if_neg (by omega)]
  · next h =>
    have h0 : s.length - n = 0 := by omega
    rw [h0, List.drop_zero]

/-! ## The packing loop's size bound (claim C1) -/

theorem chunkLoop_bound (maxSize overlap : Nat) (hov : 1 ≤ overlap) :
    ∀ (ss : List Str) (cur : Str),
      (∀ s ∈ ss, (trim s).length ≤ maxSize) →
      cur.length ≤ maxSize + overlap + 1 →
      ∀ c ∈ chunkLoop maxSize overlap ss cur, c.length ≤ maxSize + overlap + 1
  | [], cur => by
    intro _ hcur c hc
    simp only [chunkLoop] at hc
    split at hc
    · rcases List.mem_singleton.mp hc with rfl
      exact le_trans (trim_length_le cur) hcur
    · exact absurd hc (List.not_mem_nil c)
  | s :: rest, cur => by
    intro hss hcur c hc
    have hrest : ∀ x ∈ rest, (trim x).length ≤ maxSize :=
      fun x hx => hss x (List.mem_cons_of_mem s hx)
    have hhead : (trim s).length ≤ maxSize := hss s (List.mem_cons_self s rest)
    simp only [chunkLoop] at hc
    by_cases h2 : trim s = []
    · rw [if_pos h2] at hc
      exact chunkLoop_bound maxSize overlap hov rest cur hrest hcur c hc
    · rw [if_neg h2] at hc
      by_cases h3 : maxSize < cur.length + (trim s).length ∧ cur ≠ []
      · rw [if_pos h3] at hc
        rcases List.mem_cons.mp hc with rfl | hc2
        · exact le_trans (trim_length_le cur) hcur
        · refine chunkLoop_bound maxSize overlap hov rest _ hrest ?_ c hc2
          have hp := pyTail_length_le cur overlap hov
          simp only [List.length_append, List.length_cons]
          omega
      · rw [if_neg h3] at hc
        refine chunkLoop_bound maxSize overlap hov rest _ hrest ?_ c hc
        have ht := trim_length_le (cur ++ ' ' :: trim s)
        simp only [List.length_append, List.length_cons] at ht
        by_cases h4 : cur = []
        · subst h4
          simp only [List.length_nil] at ht ⊢
          omega
        · have : ¬ maxSize < cur.length + (trim s).length := fun hx => h3 ⟨hx, h4⟩
          omega

/-! ## Loop equalities for the refinement claims C3 and C6 -/

theorem chunkLoop_eq_amended (maxSize overlap : Nat) (hov : 1 ≤ overlap) :
    ∀ (ss : List Str) (cur : Str),
      chunkLoop maxSize overlap ss cur = chunkLoopAmendedC6 maxSize overlap ss cur
  | [], _ => rfl
  | s :: rest, cur => by
    by_cases h2 : trim s = []
    · simp only [chunkLoop, chunkLoopAmendedC6, if_pos h2]
      exact chunkLoop_eq_amended maxSize overlap hov rest cur
    · by_cases h3 : maxSize < cur.length + (trim s).length ∧ cur ≠ []
      · simp only [chunkLoop, chunkLoopAmendedC6, if_neg h2, if_pos h3,
          pyTail_eq_takeRight cur overlap hov]
        rw [chunkLoop_eq_amended maxSize overlap hov rest]
      · simp only [chunkLoop, chunkLoopAmendedC6, if_neg h2, if_neg h3]
        exact chunkLoop_eq_amended maxSize overlap hov rest _

theorem stepsLoop_eq_amended (a : Article) :
    ∀ (ss : List Str) (g : Str), stepsLoop a ss g = stepsLoopAmendedC3 a ss g
  | [], g => by
    simp only [stepsLoop, stepsLoopAmendedC3, List.length_drop]
    exact if_congr (by omega) rfl rfl
  | st :: rest, g => by
    simp only [stepsLoop, stepsLoopAmendedC3, List.length_drop,
      stepsLoop_eq_amended a rest]
    exact if_congr (by omega) rfl rfl

/-! ## Claim theorems (sentence packing and the step strategy) -/

/-- C1, as stated, is false: with `maxSize = 60`, `overlap = 20`, no sentence
of `exTextC1` exceeds 60 characters, yet the middle (non-final) chunk is 76
characters long, because the overlap-seeded buffer can itself exceed
`maxSize` before the next flush. -/
theorem C1_counterexample :
    ((splitSentences exTextC1).all fun s => decide ((trim s).length ≤ 60)) = true ∧
    (chunk_by_sentences exTextC1 60 20).length = 3 ∧
    60 < ((chunk_by_sentences exTextC1 60 20).getD 1 []).length := by
  refine ⟨by decide, by decide, by decide⟩

/-- C1 amended: for `overlap ≥ 1`, if every (stripped) sentence unit of the
text has length at most `maxSize`, then every chunk `chunk_by_sentences`
produces — final or not — has length at most `maxSize + overlap + 1`. -/
theorem C1_amended_bound (text : Str) (maxSize overlap : Nat) (hov : 1 ≤ overlap)
    (hs : ∀ s ∈ splitSentences text, (trim s).length ≤ maxSize) :
    ∀ c ∈ chunk_by_sentences text maxSize overlap, c.length ≤ maxSize + overlap + 1 := by
  intro c hc
  have hm : c ∈ chunkLoop maxSize overlap (splitSentences text) [] :=
    List.mem_of_mem_filter hc
  exact chunkLoop_bound maxSize overlap hov (splitSentences text) [] hs (by simp) c hm

theorem C1_amended_bound_witness :
    60 < ((chunk_by_sentences exTextC1 60 20).getD 1 []).length ∧
    ((chunk_by_sentences exTextC1 60 20).getD 1 []).length ≤ 81 :=
  ⟨by decide,
    C1_amended_bound exTextC1 60 20 (by decide) (by decide) _
      (by decide : (chunk_by_sentences exTextC1 60 20).getD 1 [] ∈
        chunk_by_sentences exTextC1 60 20)⟩

/-- C3, as stated, is false: the in-loop flush fires when the buffer *plus
the incoming step* exceeds `MAX_CHUNK_SIZE`, not when the buffer alone
already does.  On an article with two 600-character steps the source flushes
mid-loop (two `steps` chunks) while the claim's condition would not fire
(one chunk). -/
theorem C3_counterexample :
    (stepsDocs exArticleC3).length = 2 ∧ (stepsDocsSpecC3 exArticleC3).length = 1 := by
  refine ⟨by decide, by decide⟩

/-- C3 amended: the buffer is flushed before appending a step exactly when
the buffer's length *plus the incoming step's length* exceeds
`MAX_CHUNK_SIZE` and the buffer's content beyond the context line exceeds 30
characters; the final flush happens exactly when the stripped buffer's
content beyond the context line exceeds 30 characters. -/
theorem C3_amended_flush (a : Article) : stepsDocs a = stepsDocsAmendedC3 a := by
  unfold stepsDocs stepsDocsAmendedC3
  rw [stepsLoop_eq_amended a]

/-- C5: the one-FAQ scenario article produces exactly the single expected
`faq` document, with the exact context-prefixed content and the question in
its metadata. -/
theorem C5_faq_scenario :
    create_langchain_docs_from_article exArticleC5 = [exDocC5] := by decide

/-- C6, as stated, is false at the boundary: the source closes the buffer
when `len(buffer) + len(sentence)` exceeds `maxSize`, which does not count
the joining space, so a sentence whose space-joined append makes the buffer
exactly `maxSize + 1` long is still appended.  On `exTextC6` (three
30-character sentences, `maxSize = 60`, `overlap = 20`) the outputs
differ. -/
theorem C6_counterexample :
    chunk_by_sentences exTextC6 60 20 ≠ chunk_by_sentences_specC6 exTextC6 60 20 := by
  decide

/-- C6 amended: for `overlap ≥ 1`, the loop closes the buffer exactly when
the buffer's length plus the stripped sentence's length (the joining space
not counted) exceeds `maxSize` and the buffer is non-empty, seeding the next
buffer with the buffer's trailing `overlap` characters (the whole buffer if
shorter) followed by a space and the sentence; otherwise the sentence is
space-joined onto the buffer. -/
theorem C6_amended_overflow (text : Str) (maxSize overlap : Nat) (hov : 1 ≤ overlap) :
    chunk_by_sentences text maxSize overlap = chunk_by_sentences_amendedC6 text maxSize overlap := by
  unfold chunk_by_sentences chunk_by_sentences_amendedC6
  rw [chunkLoop_eq_amended maxSize overlap hov]

theorem C6_amended_overflow_witness :
    chunk_by_sentences exTextC6 60 20 = chunk_by_sentences_amendedC6 exTextC6 60 20 :=
  C6_amended_overflow exTextC6 60 20 (by decide)

/-- C7: every chunk returned by `chunk_by_sentences` has length at least
`MIN_CHUNK_SIZE` (50), and any candidate chunk of the loop that is shorter
is dropped from the output. -/
theorem C7_min_size (text : Str) (maxSize overlap : Nat) :
    (∀ c ∈ chunk_by_sentences text maxSize overlap, MIN_CHUNK_SIZE ≤ c.length) ∧
    (∀ c, c.length < MIN_CHUNK_SIZE → c ∉ chunk_by_sentences text maxSize overlap) := by
  constructor
  · intro c hc
    have := (List.mem_filter.mp hc).2
    simpa using this
  · intro c hlt hc
    have := (List.mem_filter.mp hc).2
    simp only [decide_eq_true_eq] at this
    omega

theorem C7_min_size_witness : MIN_CHUNK_SIZE ≤ exText60.length :=
  (C7_min_size exText60 1000 150).1 exText60 (by decide)

/-! ## Chunk-type classification lemmas -/

theorem mem_faqDocs_type {a : Article} {d : Document} (h : d ∈ faqDocs a) :
    d.metadata.chunk_type = ("faq").toList := by
  rcases List.mem_filterMap.mp h with ⟨p, _, hp⟩
  split at hp
  · cases hp
    rfl
  · cases hp

theorem mem_stepsLoop_type (a : Article) :
    ∀ (ss : List Str) (g : Str) (d : Document), d ∈ stepsLoop a ss g →
      d.metadata.chunk_type = ("steps").toList
  | [], g, d => by
    intro h
    simp only [stepsLoop] at h
    split at h
    · rcases List.mem_singleton.mp h with rfl
      rfl
    · exact absurd h (List.not_mem_nil d)
  | st :: rest, g, d => by
    intro h
    simp only [stepsLoop] at h
    split at h
    · rcases List.mem_cons.mp h with rfl | h2
      · rfl
      · exact mem_stepsLoop_type a rest _ d h2
    · exact mem_stepsLoop_type a rest _ d h

theorem mem_stepsDocs_type {a : Article} {d : Document} (h : d ∈ stepsDocs a) :
    d.metadata.chunk_type = ("steps").toList := by
  unfold stepsDocs at h
  split at h
  · exact absurd h (List.not_mem_nil d)
  · exact mem_stepsLoop_type a a.steps _ d h

theorem mem_sectionDocs_type {a : Article} {d : Document} (h : d ∈ sectionDocs a) :
    d.metadata.chunk_type = ("section").toList := by
  rcases List.mem_flatMap.mp h with ⟨s, _, hd⟩
  split at hd
  · exact absurd hd (List.not_mem_nil d)
  · split at hd
    · rcases List.mem_singleton.mp hd with rfl
      rfl
    · rcases List.mem_map.mp hd with ⟨sc, _, rfl⟩
      rfl

theorem mem_textDocs_type {a : Article} {d : Document} (h : d ∈ textDocs a) :
    d.metadata.chunk_type = ("text").toList := by
  unfold textDocs at h
  split at h
  · exact absurd h (List.not_mem_nil d)
  · rcases List.mem_map.mp h with ⟨tc, _, rfl⟩
    rfl

theorem mem_noteDocs_type {a : Article} {d : Document} (h : d ∈ noteDocs a) :
    d.metadata.chunk_type = ("note").toList := by
  rcases List.mem_filterMap.mp h with ⟨n, _, hn⟩
  split at hn
  · cases hn
    rfl
  · cases hn

/-! ## Claim C2: fallback chunks are strictly last-resort -/

/-- C2, as stated, is false in the "if" direction: an article with no FAQ,
steps, sections *and* no full text yields zero chunks from the first three
strategies and still no `text` chunk. -/
theorem C2_counterexample :
    faqDocs exArticleEmpty = [] ∧ stepsDocs exArticleEmpty = [] ∧
    sectionDocs exArticleEmpty = [] ∧
    create_langchain_docs_from_article exArticleEmpty = [] := by
  refine ⟨by decide, by decide, by decide, by decide⟩

/-- C2 amended: `text`-type chunks appear in the output exactly when the
FAQ, steps and sections strategies together produced zero chunks *and*
sentence-packing the article's full text yields at least one chunk; in
particular they are never emitted in addition to those strategies. -/
theorem C2_amended_fallback (a : Article) :
    (∃ d ∈ create_langchain_docs_from_article a,
        d.metadata.chunk_type = ("text").toList) ↔
    (faqDocs a = [] ∧ stepsDocs a = [] ∧ sectionDocs a = [] ∧
      chunk_by_sentences a.full_text ≠ []) := by
  constructor
  · rintro ⟨d, hd, ht⟩
    unfold create_langchain_docs_from_article at hd
    rcases List.mem_append.mp hd with h | h
    · split at h
      · next hbase =>
        rw [List.append_eq_nil] at hbase
        obtain ⟨h12, h3⟩ := hbase
        rw [List.append_eq_nil] at h12
        obtain ⟨h1, h2⟩ := h12
        refine ⟨h1, h2, h3, ?_⟩
        unfold textDocs at h
        split at h
        · exact absurd h (List.not_mem_nil d)
        · rcases List.mem_map.mp h with ⟨tc, htc, _⟩
          exact List.ne_nil_of_mem htc
      · rcases List.mem_append.mp h with h' | h'
        · rcases List.mem_append.mp h' with h'' | h''
          · have := mem_faqDocs_type h''
            rw [ht] at this
            exact absurd this (by decide)
          · have := mem_stepsDocs_type h''
            rw [ht] at this
            exact absurd this (by decide)
        · have := mem_sectionDocs_type h'
          rw [ht] at this
          exact absurd this (by decide)
    · have := mem_noteDocs_type h
      rw [ht] at this
      exact absurd this (by decide)
  · rintro ⟨h1, h2, h3, h4⟩
    have hbase : faqDocs a ++ stepsDocs a ++ sectionDocs a = [] := by
      rw [h1, h2, h3]
      rfl
    have hft : a.full_text ≠ [] := by
      intro hft
      apply h4
      rw [hft]
      decide
    obtain ⟨tc, htc⟩ := List.exists_mem_of_ne_nil _ h4
    refine ⟨mkTextDoc a tc, ?_, rfl⟩
    unfold create_langchain_docs_from_article
    apply List.mem_append_left
    rw [if_pos hbase]
    unfold textDocs
    rw [if_neg hft]
    exact List.mem_map_of_mem _ htc

theorem C2_amended_fallback_witness :
    ∃ d ∈ create_langchain_docs_from_article exArticleText,
      d.metadata.chunk_type = ("text").toList :=
  (C2_amended_fallback exArticleText).mpr (by refine ⟨by decide, by decide, by decide, by decide⟩)

/-! ## Claim C9: context assembly format -/

/-- C9: for retrieved chunks whose metadata `source` equals their metadata
`url` (an invariant of every chunk the chunker emits), `format_docs` formats
each chunk as `"[Source: {title}]\n{content}\n(URL: {source})"` and joins
the formatted chunks with the blank-line-delimited `---` rule. -/
theorem C9_format (docs : List Document)
    (h : ∀ d ∈ docs, d.metadata.source = d.metadata.url) :
    format_docs docs = format_docs_specC9 docs := by
  unfold format_docs format_docs_specC9
  congr 1
  exact List.map_congr_left fun d hd => by rw [h d hd]

theorem C9_format_witness :
    format_docs (create_langchain_docs_from_article exArticleNote) =
      format_docs_specC9 (create_langchain_docs_from_article exArticleNote) :=
  C9_format _ (by decide)

/-! ## Claim C10: FAQ pair filtering -/

theorem faqDocs_eq_filter (a : Article) :
    faqDocs a = (a.faq_pairs.filter fun p =>
      decide (trim p.question ≠ [] ∧ trim p.answer ≠ [])).map (mkFaqDoc a) := by
  unfold faqDocs
  induction a.faq_pairs with
  | nil => rfl
  | cons p ps ih =>
    by_cases h : trim p.question ≠ [] ∧ trim p.answer ≠ []
    · simp only [List.filterMap_cons, List.filter_cons, if_pos h, decide_eq_true h,
        if_true, List.map_cons, ih]
    · simp only [List.filterMap_cons, List.filter_cons, if_neg h, decide_eq_false h,
        Bool.false_eq_true, if_false, ih]

/-- C10: the `faq`-typed documents of the chunker's output are exactly the
image, in document order, of the FAQ pairs whose stripped question and
answer are both non-empty; a pair with an empty (or whitespace-only)
question or answer contributes no chunk at all. -/
theorem C10_faq_pairs (a : Article) :
    (create_langchain_docs_from_article a).filter
        (fun d => d.metadata.chunk_type == ("faq").toList) =
      (a.faq_pairs.filter fun p =>
        decide (trim p.question ≠ [] ∧ trim p.answer ≠ [])).map (mkFaqDoc a) := by
  rw [← faqDocs_eq_filter]
  unfold create_langchain_docs_from_article
  rw [List.filter_append]
  have hnotes : (noteDocs a).filter
      (fun d => d.metadata.chunk_type == ("faq").toList) = [] := by
    rw [List.filter_eq_nil_iff]
    intro d hd
    rw [mem_noteDocs_type hd]
    decide
  rw [hnotes, List.append_nil]
  split
  · next hbase =>
    rw [List.append_eq_nil] at hbase
    obtain ⟨h12, _⟩ := hbase
    rw [List.append_eq_nil] at h12
    rw [h12.1]
    exact List.filter_eq_nil_iff.mpr fun d hd => by rw [mem_textDocs_type hd]; decide
  · rw [List.filter_append, List.filter_append]
    have h1 : (faqDocs a).filter
        (fun d => d.metadata.chunk_type == ("faq").toList) = faqDocs a :=
      List.filter_eq_self.mpr fun d hd => by rw [mem_faqDocs_type hd]; decide
    have h2 : (stepsDocs a).filter
        (fun d => d.metadata.chunk_type == ("faq").toList) = [] :=
      List.filter_eq_nil_iff.mpr fun d hd => by rw [mem_stepsDocs_type hd]; decide
    have h3 : (sectionDocs a).filter
        (fun d => d.metadata.chunk_type == ("faq").toList) = [] :=
      List.filter_eq_nil_iff.mpr fun d hd => by rw [mem_sectionDocs_type hd]; decide
    rw [h1, h2, h3, List.append_nil, List.append_nil]

/-! ## Claim C8: every chunk starts with the context line -/

theorem trimR_cons_ne_nil {c : Char} (hc : c.isWhitespace = false) (t : Str) :
    trimR (c :: t) ≠ [] := by
  rw [trimR]
  cases ht : trimR t
  · simp [hc]
  · simp

theorem trimR_append (l1 l2 : Str) :
    trimR (l1 ++ l2) = if trimR l2 = [] then trimR l1 else l1 ++ trimR l2 := by
  induction l1 with
  | nil =>
    simp only [List.nil_append]
    split
    · next h => rw [h]; rfl
    · rfl
  | cons c t ih =>
    by_cases h2 : trimR l2 = []
    · rw [if_pos h2, List.cons_append, trimR, trimR, ih, if_pos h2]
    · rw [if_neg h2, List.cons_append, trimR, ih, if_neg h2]
      cases hq : t ++ trimR l2 with
      | nil =>
        rw [List.append_eq_nil] at hq
        exact absurd hq.2 h2
      | cons x r => rw [List.cons_append, hq]

theorem contextLine_head (a : Article) :
    contextLine a = '[' :: (a.category ++ ']' :: ' ' :: (a.title ++ ['\n'])) := rfl

theorem trim_ctx_append (a : Article) {c : Char} (hc : c.isWhitespace = false) (r : Str) :
    trim (contextLine a ++ c :: r) = contextLine a ++ trimR (c :: r) := by
  unfold trim
  have h1 : trimL (contextLine a ++ c :: r) = contextLine a ++ c :: r := by
    rw [contextLine_head, List.cons_append, trimL, List.dropWhile_cons_of_neg (by decide)]
  rw [h1, trimR_append, if_neg (trimR_cons_ne_nil hc r)]

theorem ctx_append_ne_nil (a : Article) (x : Str) : contextLine a ++ x ≠ [] := by
  rw [contextLine_head, List.cons_append]
  exact List.cons_ne_nil _ _

theorem stepsLoop_content (a : Article) :
    ∀ (ss : List Str) (g : Str), (∃ r, g = contextLine a ++ 'H' :: r) →
      ∀ d ∈ stepsLoop a ss g,
        d.page_content ≠ [] ∧ contextLine a <+: d.page_content
  | [], g => by
    rintro ⟨r, rfl⟩ d hd
    simp only [stepsLoop] at hd
    split at hd
    · rcases List.mem_singleton.mp hd with rfl
      rw [mkStepsDoc]
      simp only
      rw [trim_ctx_append a (by decide) r]
      exact ⟨ctx_append_ne_nil a _, List.prefix_append _ _⟩
    · exact absurd hd (List.not_mem_nil d)
  | st :: rest, g => by
    rintro ⟨r, rfl⟩ d hd
    simp only [stepsLoop] at hd
    split at hd
    · rcases List.mem_cons.mp hd with rfl | hd2
      · rw [mkStepsDoc]
        simp only
        rw [trim_ctx_append a (by decide) r]
        exact ⟨ctx_append_ne_nil a _, List.prefix_append _ _⟩
      · refine stepsLoop_content a rest _ ?_ d hd2
        refine ⟨("ow to (continued):\n").toList ++ st ++ ['\n'], ?_⟩
        simp [stepHeadCont, List.append_assoc]
    · refine stepsLoop_content a rest _ ?_ d hd
      exact ⟨r ++ st ++ ['\n'], by simp [List.append_assoc]⟩

/-- C8: every chunk the chunker emits has non-empty content, and that
content starts with the context line `"[{category}] {title}\n"`. -/
theorem C8_context_line (a : Article) (d : Document)
    (hd : d ∈ create_langchain_docs_from_article a) :
    d.page_content ≠ [] ∧ contextLine a <+: d.page_content := by
  have hfaq : ∀ d2 ∈ faqDocs a, d2.page_content ≠ [] ∧ contextLine a <+: d2.page_content := by
    intro d2 h2
    rcases List.mem_filterMap.mp h2 with ⟨p, _, hp⟩
    split at hp
    · cases hp
      constructor
      · simp [mkFaqDoc, contextLine_head]
      · simp only [mkFaqDoc, List.append_assoc, List.cons_append]
        exact List.prefix_append _ _
    · cases hp
  have hsteps : ∀ d2 ∈ stepsDocs a, d2.page_content ≠ [] ∧ contextLine a <+: d2.page_content := by
    intro d2 h2
    unfold stepsDocs at h2
    split at h2
    · exact absurd h2 (List.not_mem_nil d2)
    · refine stepsLoop_content a a.steps _ ?_ d2 h2
      exact ⟨("ow to (step-by-step):\n").toList, rfl⟩
  have hsec : ∀ d2 ∈ sectionDocs a, d2.page_content ≠ [] ∧ contextLine a <+: d2.page_content := by
    intro d2 h2
    rcases List.mem_flatMap.mp h2 with ⟨s, _, hd2⟩
    split at hd2
    · exact absurd hd2 (List.not_mem_nil d2)
    · split at hd2
      · rcases List.mem_singleton.mp hd2 with rfl
        constructor
        · simp [mkSectionDoc, contextLine_head]
        · simp only [mkSectionDoc, List.append_assoc, List.cons_append]
          exact List.prefix_append _ _
      · rcases List.mem_map.mp hd2 with ⟨sc, _, rfl⟩
        constructor
        · simp [mkSectionDoc, contextLine_head]
        · simp only [mkSectionDoc, List.append_assoc, List.cons_append]
          exact List.prefix_append _ _
  have htext : ∀ d2 ∈ textDocs a, d2.page_content ≠ [] ∧ contextLine a <+: d2.page_content := by
    intro d2 h2
    unfold textDocs at h2
    split at h2
    · exact absurd h2 (List.not_mem_nil d2)
    · rcases List.mem_map.mp h2 with ⟨tc, _, rfl⟩
      constructor
      · simp [mkTextDoc, contextLine_head]
      · simp only [mkTextDoc]
        exact List.prefix_append _ _
  have hnote : ∀ d2 ∈ noteDocs a, d2.page_content ≠ [] ∧ contextLine a <+: d2.page_content := by
    intro d2 h2
    rcases List.mem_filterMap.mp h2 with ⟨n, _, hn⟩
    split at hn
    · cases hn
      constructor
      · simp [mkNoteDoc, contextLine_head]
      · simp only [mkNoteDoc, List.append_assoc, List.cons_append]
        exact List.prefix_append _ _
    · cases hn
  unfold create_langchain_docs_from_article at hd
  rcases List.mem_append.mp hd with h | h
  · split at h
    · exact htext d h
    · rcases List.mem_append.mp h with h' | h'
      · rcases List.mem_append.mp h' with h'' | h''
        · exact hfaq d h''
        · exact hsteps d h''
      · exact hsec d h'
  · exact hnote d h

theorem C8_context_line_witness :
    (mkNoteDoc exArticleNote (List.replicate 60 'n')).page_content ≠ [] ∧
    contextLine exArticleNote <+:
      (mkNoteDoc exArticleNote (List.replicate 60 'n')).page_content :=
  C8_context_line exArticleNote _ (by decide)

/-! ## Claim C4: whitespace normalisation of the extractor's stored fields -/

theorem noWsRun_tail {x : Char} {l : Str} (h : noWsRun (x :: l) = true) :
    noWsRun l = true := by
  cases l with
  | nil => rfl
  | cons y t =>
    rw [noWsRun, Bool.and_eq_true] at h
    exact h.2

theorem noWsRun_cons_of {x : Char} {l : Str} (hl : noWsRun l = true)
    (hx : x.isWhitespace = false ∨ noLeadWs l = true) : noWsRun (x :: l) = true := by
  cases l with
  | nil => rfl
  | cons y t =>
    rw [noWsRun, Bool.and_eq_true]
    refine ⟨?_, hl⟩
    rcases hx with hx | hx
    · simp [hx]
    · rw [noLeadWs] at hx
      simp only [Bool.not_eq_true'] at hx
      simp [hx]

theorem noWsRun_pair {x y : Char} {l : Str} (h : noWsRun (x :: y :: l) = true) :
    (x.isWhitespace && y.isWhitespace) = false := by
  rw [noWsRun, Bool.and_eq_true] at h
  have h1 := h.1
  rwa [Bool.not_eq_true'] at h1

theorem collapseGo_true_noLead : ∀ t : Str, noLeadWs (collapseGo true t) = true := by
  intro t
  induction t with
  | nil => rfl
  | cons c t ih =>
    rw [collapseGo]
    by_cases hc : c.isWhitespace
    · rw [if_pos hc, if_pos rfl]
      exact ih
    · rw [if_neg hc]
      simp only [noLeadWs, Bool.not_eq_true']
      exact eq_false_of_ne_true hc

theorem noWsRun_collapseGo : ∀ (t : Str) (b : Bool), noWsRun (collapseGo b t) = true := by
  intro t
  induction t with
  | nil => intro b; rfl
  | cons c t ih =>
    intro b
    rw [collapseGo]
    by_cases hc : c.isWhitespace
    · rw [if_pos hc]
      cases b with
      | true => exact ih true
      | false =>
        rw [if_neg (by simp)]
        exact noWsRun_cons_of (ih true) (Or.inr (collapseGo_true_noLead t))
    · rw [if_neg hc]
      exact noWsRun_cons_of (ih false) (Or.inl (eq_false_of_ne_true hc))

theorem noWsRun_trimL {l : Str} (h : noWsRun l = true) : noWsRun (trimL l) = true := by
  induction l with
  | nil => rfl
  | cons c t ih =>
    rw [trimL]
    by_cases hc : c.isWhitespace
    · rw [List.dropWhile_cons_of_pos hc]
      exact ih (noWsRun_tail h)
    · rwa [List.dropWhile_cons_of_neg hc]

theorem noLeadWs_trimL (l : Str) : noLeadWs (trimL l) = true := by
  induction l with
  | nil => rfl
  | cons c t ih =>
    rw [trimL]
    by_cases hc : c.isWhitespace
    · rw [List.dropWhile_cons_of_pos hc]
      exact ih
    · rw [List.dropWhile_cons_of_neg hc]
      simp only [noLeadWs, Bool.not_eq_true']
      exact eq_false_of_ne_true hc

theorem noWsRun_take {l : Str} (h : noWsRun l = true) :
    ∀ n : Nat, noWsRun (l.take n) = true := by
  induction l with
  | nil => intro n; simp [noWsRun]
  | cons x l ih =>
    intro n
    cases n with
    | zero => rfl
    | succ n =>
      rw [List.take_succ_cons]
      cases l with
      | nil => simp [noWsRun]
      | cons y t =>
        cases n with
        | zero => rfl
        | succ m =>
          rw [List.take_succ_cons]
          have h2 : noWsRun (y :: List.take m t) = true := by
            have := ih (noWsRun_tail h) (m + 1)
            rwa [List.take_succ_cons] at this
          refine noWsRun_cons_of h2 ?_
          have hp := noWsRun_pair h
          cases hx : x.isWhitespace with
          | false => exact Or.inl rfl
          | true =>
            rw [hx, Bool.true_and] at hp
            exact Or.inr (by simp [noLeadWs, hp])

theorem trimR_eq_take : ∀ l : Str, ∃ n, trimR l = l.take n := by
  intro l
  induction l with
  | nil => exact ⟨0, rfl⟩
  | cons c t ih =>
    obtain ⟨n, hn⟩ := ih
    rw [trimR]
    cases h : trimR t with
    | nil =>
      by_cases hc : c.isWhitespace
      · exact ⟨0, by rw [if_pos hc]; rfl⟩
      · exact ⟨1, by rw [if_neg hc]; rfl⟩
    | cons x r =>
      refine ⟨n + 1, ?_⟩
      rw [List.take_succ_cons, ← hn, h]

theorem noWsRun_trimR {l : Str} (h : noWsRun l = true) : noWsRun (trimR l) = true := by
  obtain ⟨n, hn⟩ := trimR_eq_take l
  rw [hn]
  exact noWsRun_take h n

theorem noLeadWs_trimR {l : Str} (h : noLeadWs l = true) : noLeadWs (trimR l) = true := by
  cases l with
  | nil => rfl
  | cons c t =>
    rw [trimR]
    cases ht : trimR t with
    | nil =>
      by_cases hc : c.isWhitespace
      · rw [if_pos hc]; rfl
      · rw [if_neg hc]; exact h
    | cons x r => exact h

theorem noTrailWs_trimR : ∀ l : Str, noTrailWs (trimR l) = true := by
  intro l
  induction l with
  | nil => rfl
  | cons c t ih =>
    rw [trimR]
    cases ht : trimR t with
    | nil =>
      by_cases hc : c.isWhitespace
      · rw [if_pos hc]; rfl
      · rw [if_neg hc]
        simp only [noTrailWs, List.getLast?_singleton, Bool.not_eq_true']
        exact eq_false_of_ne_true hc
    | cons x r =>
      rw [ht] at ih
      cases r with
      | nil => simpa [noTrailWs] using ih
      | cons z zs => simpa [noTrailWs] using ih

theorem normalizedB_clean (s : Str) : normalizedB (clean_text s) = true := by
  unfold clean_text trim collapseWs normalizedB
  have h1 : noWsRun (collapseGo false s) = true := noWsRun_collapseGo s false
  have h2 : noWsRun (trimL (collapseGo false s)) = true := noWsRun_trimL h1
  rw [noWsRun_trimR h2, noLeadWs_trimR (noLeadWs_trimL _), noTrailWs_trimR]
  rfl

theorem noTrailWs_cons_cons {c d : Char} {t : Str} :
    noTrailWs (c :: d :: t) = noTrailWs (d :: t) := by
  unfold noTrailWs
  rw [List.getLast?_cons_cons]

theorem noTrailWs_singleton {c : Char} : noTrailWs [c] = !c.isWhitespace := by
  unfold noTrailWs
  rw [List.getLast?_singleton]

theorem noLeadWs_append {x z : Str} (hx : x ≠ []) (h : noLeadWs x = true) :
    noLeadWs (x ++ z) = true := by
  cases x with
  | nil => exact absurd rfl hx
  | cons c t => exact h

theorem noTrailWs_append {x z : Str} (hz : z ≠ []) (h : noTrailWs z = true) :
    noTrailWs (x ++ z) = true := by
  unfold noTrailWs at h ⊢
  rw [List.getLast?_append]
  cases hzl : z.getLast? with
  | none => exact absurd (List.getLast?_eq_none_iff.mp hzl) hz
  | some c =>
    rw [hzl] at h
    simpa using h

theorem noWsRun_append_sep {J : Str} (hJl : noLeadWs J = true) (hJr : noWsRun J = true) :
    ∀ x : Str, noWsRun x = true → noTrailWs x = true → noWsRun (x ++ ' ' :: J) = true
  | [] => by
    intro _ _
    simp only [List.nil_append]
    exact noWsRun_cons_of hJr (Or.inr hJl)
  | [c] => by
    intro _ ht
    rw [noTrailWs_singleton, Bool.not_eq_true'] at ht
    simp only [List.cons_append, List.nil_append]
    exact noWsRun_cons_of (noWsRun_cons_of hJr (Or.inr hJl)) (Or.inl ht)
  | c :: d :: t => by
    intro hr ht
    simp only [List.cons_append]
    refine noWsRun_cons_of ?_ ?_
    · have hrec := noWsRun_append_sep hJl hJr (d :: t) (noWsRun_tail hr)
        (by rwa [noTrailWs_cons_cons] at ht)
      simpa [List.cons_append] using hrec
    · have hp := noWsRun_pair hr
      cases hx : c.isWhitespace with
      | false => exact Or.inl rfl
      | true =>
        rw [hx, Bool.true_and] at hp
        exact Or.inr (by simp [List.cons_append, noLeadWs, hp])

theorem joinSp_cons_ne {x : Str} (l : List Str) (hx : x ≠ []) : joinSp (x :: l) ≠ [] := by
  cases l with
  | nil => exact hx
  | cons y t =>
    rw [joinSp]
    cases x with
    | nil => exact absurd rfl hx
    | cons c s => exact List.cons_ne_nil c _

theorem joinSp_normalized :
    ∀ l : List Str, (∀ x ∈ l, x ≠ [] ∧ normalizedB x = true) →
      normalizedB (joinSp l) = true
  | [] => fun _ => rfl
  | [x] => fun h => (h x (List.mem_singleton.mpr rfl)).2
  | x :: y :: t => fun h => by
    have hx := h x (List.mem_cons_self x _)
    have hrest : ∀ z ∈ y :: t, z ≠ [] ∧ normalizedB z = true :=
      fun z hz => h z (List.mem_cons_of_mem x hz)
    have hJn := joinSp_normalized (y :: t) hrest
    have hy := hrest y (List.mem_cons_self y t)
    have hJne : joinSp (y :: t) ≠ [] := joinSp_cons_ne t hy.1
    rw [normalizedB, Bool.and_eq_true, Bool.and_eq_true] at hJn
    obtain ⟨⟨hJl, hJr⟩, hJt⟩ := hJn
    have hxn := hx.2
    rw [normalizedB, Bool.and_eq_true, Bool.and_eq_true] at hxn
    obtain ⟨⟨hxl, hxr⟩, hxt⟩ := hxn
    rw [joinSp, normalizedB, Bool.and_eq_true, Bool.and_eq_true]
    refine ⟨⟨noLeadWs_append hx.1 hxl, noWsRun_append_sep hJl hJr x hxr hxt⟩, ?_⟩
    refine noTrailWs_append (List.cons_ne_nil ' ' _) ?_
    cases hJ : joinSp (y :: t) with
    | nil => exact absurd hJ hJne
    | cons j js =>
      rw [noTrailWs_cons_cons]
      rw [hJ] at hJt
      exact hJt

theorem collectAnswer_elems :
    ∀ (sibs : List (Str × Str)) (acc : List Str),
      (∀ x ∈ acc, x ≠ [] ∧ normalizedB x = true) →
      ∀ x ∈ collectAnswer sibs acc, x ≠ [] ∧ normalizedB x = true
  | [], acc => fun h => h
  | (name, raw) :: rest, acc => fun h x hx => by
    rw [collectAnswer] at hx
    simp only at hx
    by_cases h1 : name ∈ headerTags
    · rw [if_pos h1] at hx
      exact h x hx
    · rw [if_neg h1] at hx
      by_cases h2 : clean_text raw = []
      · rw [if_pos h2] at hx
        exact h x hx
      · rw [if_neg h2] at hx
        have hacc2 : ∀ z ∈ acc ++ [clean_text raw], z ≠ [] ∧ normalizedB z = true := by
          intro z hz
          rcases List.mem_append.mp hz with hz | hz
          · exact h z hz
          · rcases List.mem_singleton.mp hz with rfl
            exact ⟨h2, normalizedB_clean raw⟩
        by_cases h3 : (clean_text raw).getLast? = some '?' ∧ 10 < (clean_text raw).length
        · rw [if_pos h3] at hx
          exact h x hx
        · rw [if_neg h3] at hx
          by_cases h4 : 5 ≤ (acc ++ [clean_text raw]).length
          · rw [if_pos h4] at hx
            exact hacc2 x hx
          · rw [if_neg h4] at hx
            exact collectAnswer_elems rest _ hacc2 x hx

theorem sectionParts_elems (sibs : List (Str × Str)) :
    ∀ x ∈ sectionParts sibs, x ≠ [] ∧ normalizedB x = true := by
  intro x hx
  unfold sectionParts at hx
  have hlen := (List.mem_filter.mp hx).2
  simp only [decide_eq_true_eq] at hlen
  rcases List.mem_map.mp (List.mem_filter.mp hx).1 with ⟨p, _, rfl⟩
  refine ⟨?_, normalizedB_clean _⟩
  intro hnil
  rw [hnil] at hlen
  simp at hlen

theorem noWsRun_append_right : ∀ p q : Str, noWsRun (p ++ q) = true → noWsRun q = true
  | [], _ => fun h => h
  | _ :: p, q => fun h => noWsRun_append_right p q (noWsRun_tail h)

theorem noTrailWs_append_right {p q : Str} (hq : q ≠ []) (h : noTrailWs (p ++ q) = true) :
    noTrailWs q = true := by
  unfold noTrailWs at h ⊢
  rw [List.getLast?_append] at h
  cases hql : q.getLast? with
  | none => exact absurd (List.getLast?_eq_none_iff.mp hql) hq
  | some c =>
    rw [hql] at h
    simpa using h

theorem dbsSuffix_cons : dbsSuffix = ' ' :: ("| DBS Singapore").toList := rfl

theorem prefix_head_space {c : Char} {t : Str}
    (h : dbsSuffix.isPrefixOf (c :: t) = true) : c = ' ' := by
  have hp := Iff.mp List.isPrefixOf_iff_prefix h
  obtain ⟨r, hr⟩ := hp
  rw [dbsSuffix_cons, List.cons_append] at hr
  injection hr with h1 _
  exact h1.symm

theorem removeOccs_nil_of (x : Char) (t : Str)
    (h : removeOccs dbsSuffix (x :: t) = []) : dbsSuffix.isPrefixOf (x :: t) = true := by
  by_cases hcond : dbsSuffix ≠ [] ∧ dbsSuffix.isPrefixOf (x :: t)
  · exact hcond.2
  · rw [removeOccs, dif_neg hcond] at h
    exact absurd h (List.cons_ne_nil _ _)

theorem removeOccs_clean :
    ∀ (fuel : Nat) (s : Str), s.length ≤ fuel →
      noWsRun s = true → noTrailWs s = true →
      (noWsRun (removeOccs dbsSuffix s) = true ∧
       noTrailWs (removeOccs dbsSuffix s) = true) ∧
      (∀ c, (removeOccs dbsSuffix s).head? = some c → c.isWhitespace = true →
        ∃ d, s.head? = some d ∧ d.isWhitespace = true) := by
  intro fuel
  induction fuel with
  | zero =>
    intro s hlen _ _
    have hs : s = [] := List.length_eq_zero.mp (Nat.le_zero.mp hlen)
    subst hs
    refine ⟨⟨by rw [removeOccs]; rfl, by rw [removeOccs]; rfl⟩, ?_⟩
    intro c hc
    rw [removeOccs] at hc
    simp at hc
  | succ n ih =>
    intro s hlen hr ht
    cases s with
    | nil =>
      refine ⟨⟨by rw [removeOccs]; rfl, by rw [removeOccs]; rfl⟩, ?_⟩
      intro c hc
      rw [removeOccs] at hc
      simp at hc
    | cons c t =>
      by_cases hcond : dbsSuffix ≠ [] ∧ dbsSuffix.isPrefixOf (c :: t)
      · have heq : removeOccs dbsSuffix (c :: t) =
            removeOccs dbsSuffix ((c :: t).drop dbsSuffix.length) := by
          rw [removeOccs, dif_pos hcond]
        have hsplit : (c :: t).take dbsSuffix.length ++ (c :: t).drop dbsSuffix.length
            = c :: t := List.take_append_drop _ _
        have hr' : noWsRun ((c :: t).drop dbsSuffix.length) = true :=
          noWsRun_append_right _ _ (by rw [hsplit]; exact hr)
        have ht' : noTrailWs ((c :: t).drop dbsSuffix.length) = true := by
          cases hd : (c :: t).drop dbsSuffix.length with
          | nil => rfl
          | cons y ys =>
            refine noTrailWs_append_right (p := (c :: t).take dbsSuffix.length)
              (List.cons_ne_nil _ _) ?_
            rw [← hd, hsplit]
            exact ht
        have hlen' : ((c :: t).drop dbsSuffix.length).length ≤ n := by
          rw [List.length_drop]
          have h16 : dbsSuffix.length = 16 := by decide
          rw [h16]
          simp only [List.length_cons] at hlen ⊢
          omega
        obtain ⟨hA, _⟩ := ih _ hlen' hr' ht'
        refine ⟨by rw [heq]; exact hA, ?_⟩
        intro c2 _ _
        refine ⟨c, rfl, ?_⟩
        rw [prefix_head_space hcond.2]
        decide
      · have heq : removeOccs dbsSuffix (c :: t) = c :: removeOccs dbsSuffix t := by
          rw [removeOccs, dif_neg hcond]
        have hrt : noWsRun t = true := noWsRun_tail hr
        have htt : noTrailWs t = true := by
          cases t with
          | nil => rfl
          | cons d ts => rwa [noTrailWs_cons_cons] at ht
        have hlen' : t.length ≤ n := by
          simp only [List.length_cons] at hlen
          omega
        obtain ⟨⟨hA1, hA2⟩, hB⟩ := ih t hlen' hrt htt
        rw [heq]
        refine ⟨⟨?_, ?_⟩, ?_⟩
        · refine noWsRun_cons_of hA1 ?_
          cases hcw : c.isWhitespace with
          | false => exact Or.inl rfl
          | true =>
            right
            cases hRt : removeOccs dbsSuffix t with
            | nil => rfl
            | cons x r =>
              simp only [noLeadWs]
              cases hxw : x.isWhitespace with
              | false => simp
              | true =>
                obtain ⟨d, hd1, hd2⟩ := hB x (by rw [hRt]; rfl) hxw
                cases t with
                | nil => simp at hd1
                | cons d0 t2 =>
                  simp only [List.head?_cons, Option.some.injEq] at hd1
                  subst hd1
                  have hp := noWsRun_pair hr
                  rw [hcw, hd2] at hp
                  simp at hp
        · cases hRt : removeOccs dbsSuffix t with
          | nil =>
            rw [noTrailWs_singleton]
            cases t with
            | nil =>
              rw [noTrailWs_singleton] at ht
              exact ht
            | cons x t2 =>
              have hpre := removeOccs_nil_of x t2 hRt
              have hx : x = ' ' := prefix_head_space hpre
              have hp := noWsRun_pair hr
              rw [hx] at hp
              have hsp : (' ' : Char).isWhitespace = true := by decide
              rw [hsp, Bool.and_true] at hp
              simp [hp]
          | cons x r =>
            rw [noTrailWs_cons_cons]
            rw [hRt] at hA2
            exact hA2
        · intro c2 hc2 hwc2
          simp only [List.head?_cons, Option.some.injEq] at hc2
          subst hc2
          exact ⟨_, rfl, hwc2⟩

theorem normalizedB_removeOccs {s : Str} (h : normalizedB s = true) :
    normalizedB (removeOccs dbsSuffix s) = true := by
  rw [normalizedB, Bool.and_eq_true, Bool.and_eq_true] at h
  obtain ⟨⟨hl, hr⟩, ht⟩ := h
  obtain ⟨⟨hA1, hA2⟩, hB⟩ := removeOccs_clean s.length s le_rfl hr ht
  rw [normalizedB, Bool.and_eq_true, Bool.and_eq_true]
  refine ⟨⟨?_, hA1⟩, hA2⟩
  cases hRs : removeOccs dbsSuffix s with
  | nil => rfl
  | cons x r =>
    simp only [noLeadWs]
    cases hxw : x.isWhitespace with
    | false => simp
    | true =>
      obtain ⟨d, hd1, hd2⟩ := hB x (by rw [hRs]; rfl) hxw
      cases s with
      | nil => simp at hd1
      | cons d0 t =>
        simp only [List.head?_cons, Option.some.injEq] at hd1
        subst hd1
        simp only [noLeadWs, Bool.not_eq_true'] at hl
        rw [hl] at hd2
        cases hd2

theorem collapse_nonws_append (l1 l2 : Str) (h : ∀ c ∈ l1, c.isWhitespace = false) :
    collapseGo false (l1 ++ l2) = l1 ++ collapseGo false l2 := by
  induction l1 with
  | nil => rfl
  | cons c t ih =>
    rw [List.cons_append, collapseGo]
    have hc := h c (List.mem_cons_self c t)
    rw [if_neg (by simp [hc]), ih (fun x hx => h x (List.mem_cons_of_mem c hx)),
      List.cons_append]

theorem clean_cexRawC4 : clean_text cexRawC4 = cexRawC4 := by
  have hmem : ∀ c ∈ ('a' :: List.replicate 14998 'a'), c.isWhitespace = false := by
    intro c hc
    rcases List.mem_cons.mp hc with rfl | hc
    · decide
    · rw [List.eq_of_mem_replicate hc]
      decide
  unfold clean_text collapseWs trim
  rw [show cexRawC4 = ('a' :: List.replicate 14998 'a') ++ [' ', 'b'] from rfl]
  rw [collapse_nonws_append _ _ hmem]
  rw [show collapseGo false [' ', 'b'] = [' ', 'b'] from rfl]
  have htl : trimL (('a' :: List.replicate 14998 'a') ++ [' ', 'b'])
      = ('a' :: List.replicate 14998 'a') ++ [' ', 'b'] := by
    rw [List.cons_append, trimL, List.dropWhile_cons_of_neg (by decide), ← List.cons_append]
  rw [htl, trimR_append, if_neg (show ¬trimR [' ', 'b'] = [] by decide)]
  rw [show trimR [' ', 'b'] = [' ', 'b'] from rfl]

/-- C4, as stated, is false for the `fullText` field: the extractor stores
`clean_text(...)[:15000]`, and on a cleaned text 15001 characters long with
a space at index 14999 the truncation ends on that space, leaving trailing
whitespace in the stored field. -/
theorem C4_counterexample : normalizedB (mk_full_text cexRawC4) = false := by
  unfold mk_full_text
  rw [clean_cexRawC4]
  rw [show cexRawC4 = ('a' :: List.replicate 14998 'a') ++ [' ', 'b'] from rfl]
  rw [List.take_append_eq_append_take]
  have hlen : ('a' :: List.replicate 14998 'a').length = 14999 := by
    rw [List.length_cons, List.length_replicate]
  rw [List.take_all_of_le (by rw [hlen]; omega), hlen]
  rw [show (15000 - 14999) = 1 from rfl]
  rw [show List.take 1 ([' ', 'b'] : Str) = [' '] from rfl]
  unfold normalizedB noTrailWs
  rw [List.getLast?_concat]
  exact Bool.and_false _

/-- C4 amended: every text field the structural extractor stores — both
title branches, each step, each FAQ question and joined answer, each section
heading and joined content, each note — is whitespace-normalized; the one
exception is `fullText`, which is a normalized text truncated to 15000
characters and can therefore end in whitespace (it still has no leading
whitespace and no whitespace runs). -/
theorem C4_amended_normalized (rawT rawS rawQ rawH rawN rawF : Str)
    (sibsA sibsS : List (Str × Str)) :
    normalizedB (mk_title_h1 rawT) = true ∧
    normalizedB (mk_title_doc rawT) = true ∧
    normalizedB (mk_step rawS) = true ∧
    normalizedB (mk_faq_question rawQ) = true ∧
    normalizedB (mk_faq_answer sibsA) = true ∧
    normalizedB (clean_text rawH) = true ∧
    normalizedB (mk_section_content sibsS) = true ∧
    normalizedB (mk_note rawN) = true ∧
    mk_full_text rawF = (clean_text rawF).take 15000 ∧
    normalizedB (clean_text rawF) = true :=
  ⟨normalizedB_clean _,
   normalizedB_removeOccs (normalizedB_clean _),
   normalizedB_clean _,
   normalizedB_clean _,
   joinSp_normalized _ (collectAnswer_elems sibsA []
     (fun x hx => absurd hx (List.not_mem_nil x))),
   normalizedB_clean _,
   joinSp_normalized _ (sectionParts_elems sibsS),
   normalizedB_clean _,
   rfl,
   normalizedB_clean _⟩
